import Mathlib

/-!
Verification of the icecast-exporter program (src/main.go) against its
natural-language specification.

The Go program is shallowly embedded: JSON documents are an inductive
`Json` type, Go's `encoding/json` unmarshalling into the `Stream` struct
and `[]Stream` slice is modelled by `parseStream` / `parseStreamList`,
the custom `Source.UnmarshalJSON` by `unmarshalSource`, the label
functions `urlToLabel` and `makeLegacyLabel` as functions on `List Char`
(one entry per Go rune; all characters the code inspects are ASCII),
and one iteration of the polling loop in `updateListeners` as the pure
state-transformer `runCycle` over an explicit gauge-registry state.
The decoded `*StatusRoot` pointer is an `Option StatusRoot`: a `null`
body makes Go's `Decode` nil the pointer, and the unrecovered
nil-pointer dereference at the `resp.Icestats.Source` access (which
kills the process) is recorded by the `panicked` flag of `CycleOutput`;
`runCycles` stops folding once a cycle panicked.
Gauge values are modelled as `Int`: the program only ever stores
`float64(s.Listeners)` where `s.Listeners` is a Go `int`, so the stored
value is determined by the integer listener count.
-/

set_option autoImplicit false

namespace Icecast

/-- One stream record, mirroring the Go struct `Stream`
(`Listeners int`, `ServerName string` with JSON tag `server_name`,
`ListenURL string` with JSON tag `listenurl`). -/
structure Stream where
  listeners : Int
  serverName : String
  listenURL : String
  deriving DecidableEq

/-- A JSON document. Numbers are modelled as integers: the only numeric
field the program decodes is the integer listener count. -/
inductive Json where
  | null
  | bool (b : Bool)
  | num (n : Int)
  | str (s : String)
  | arr (elems : List Json)
  | obj (fields : List (String × Json))

deriving instance DecidableEq for Except

/-- ASCII lower-casing of one character, for Go's case-insensitive JSON
key matching. -/
def lowerChar (c : Char) : Char :=
  if c.isUpper then Char.ofNat (c.toNat + 32) else c

/-- ASCII lower-casing of a string (all keys the program matches are
ASCII). -/
def lowerStr (s : String) : String :=
  ⟨s.data.map lowerChar⟩

/-- Decoding one object field into a partially built `Stream`, mirroring
Go `encoding/json` struct decoding: keys are matched case-insensitively
against the field tags, unknown keys are ignored, a JSON `null` leaves
the field untouched, and a type mismatch is an error. -/
def applyStreamField (st : Stream) (kv : String × Json) : Option Stream :=
  let k := lowerStr kv.1
  if k = "listeners" then
    match kv.2 with
    | Json.num n => some { st with listeners := n }
    | Json.null => some st
    | _ => none
  else if k = "server_name" then
    match kv.2 with
    | Json.str s => some { st with serverName := s }
    | Json.null => some st
    | _ => none
  else if k = "listenurl" then
    match kv.2 with
    | Json.str s => some { st with listenURL := s }
    | Json.null => some st
    | _ => none
  else some st

/-- Go `json.Unmarshal(data, &s)` for `s : Stream`: succeeds on `null`
(leaving the zero value) and on objects whose recognized fields are
well-typed; fails on every other document kind. -/
def parseStream : Json → Option Stream
  | Json.null => some ⟨0, "", ""⟩
  | Json.obj fields => fields.foldlM applyStreamField ⟨0, "", ""⟩
  | _ => none

/-- Go `json.Unmarshal(data, &xs)` for `xs : []Stream`: succeeds on `null`
(nil slice) and on arrays all of whose elements decode as `Stream`. -/
def parseStreamList : Json → Option (List Stream)
  | Json.null => some []
  | Json.arr elems => elems.mapM parseStream
  | _ => none

/-- The custom decoder `Source.UnmarshalJSON` (src/main.go lines 52-65):
first try to unmarshal an array of streams; on success that array is the
result; otherwise try a single stream and wrap it; otherwise fail with
the decode error message. -/
def unmarshalSource (data : Json) : Except String (List Stream) :=
  match parseStreamList data with
  | some multiStream => Except.ok multiStream
  | none =>
    match parseStream data with
    | some singleStream => Except.ok [singleStream]
    | none => Except.error "error parsing icestats source"

/-- Mirror of the Go struct `IcecastStats` (field `Source`). -/
structure IcecastStats where
  source : List Stream
  deriving DecidableEq

/-- Mirror of the Go struct `StatusRoot` (field `Icestats`). -/
structure StatusRoot where
  icestats : IcecastStats
  deriving DecidableEq

/-- Case-insensitive object-field lookup, as Go's decoder matches the
`Icestats` field name; with duplicate keys the last occurrence wins. -/
def lookupFieldCI (key : String) (fields : List (String × Json)) : Option Json :=
  fields.foldl (fun acc kv => if lowerStr kv.1 = key then some kv.2 else acc) none

/-- The body decode performed by `LoadIcecastStatus` (src/main.go line 82):
`json.NewDecoder(resp.Body).Decode(&stats)` where `stats` has pointer
type `*StatusRoot` and the returned error is IGNORED. The result models
the pointer: a body that is the JSON literal `null` makes the decoder
set the pointer itself to nil (`none` here); any other body leaves the
pointer allocated (`some`) and decodes leniently — whatever fails to
decode leaves the corresponding field at its zero value, so a non-null
body matching neither known schema yields an empty stream list. -/
def decodeStatusRootLenient (body : Json) : Option StatusRoot :=
  match body with
  | Json.null => none
  | Json.obj fields =>
    some { icestats :=
      { source :=
        match lookupFieldCI "icestats" fields with
        | some (Json.obj inner) =>
          match lookupFieldCI "source" inner with
          | some sourceJson =>
            match unmarshalSource sourceJson with
            | Except.ok streams => streams
            | Except.error _ => []
          | none => []
        | _ => [] } }
  | _ => some { icestats := { source := [] } }

/-- The stream list the record loop of `updateListeners` ranges over for
a given body when the decoded pointer is non-nil; for the nil pointer
(body `null`) the loop is never reached — the field access panics first
— and this projection is the empty list. -/
def snapshotOf (body : Json) : List Stream :=
  match decodeStatusRootLenient body with
  | some root => root.icestats.source
  | none => []

/-- Outcome of one `http.Get` of the status URL. Go's `http.Get` returns
a non-nil error only on transport failure; a response with any HTTP
status code (success or not) is returned without error. -/
inductive FetchResult where
  | transportError
  | response (status : Nat) (body : Json)

/-- `LoadIcecastStatus` (src/main.go lines 72-85): returns an error only
when the transport fails; otherwise returns the decoded `*StatusRoot`
pointer with a nil error — the decode error on line 82 is discarded,
the status code is never inspected, and a `null` body yields a nil
pointer (`Except.ok none`) together with the nil error. -/
def LoadIcecastStatus : FetchResult → Except Unit (Option StatusRoot)
  | FetchResult.transportError => Except.error ()
  | FetchResult.response _ body => Except.ok (decodeStatusRootLenient body)

/-- The greatest index at which `c` occurs, mirroring `strings.LastIndex`
(src/main.go line 36); `none` when `c` does not occur. -/
def lastIndexOf (c : Char) : List Char → Option Nat
  | [] => none
  | x :: xs =>
    match lastIndexOf c xs with
    | some i => some (i + 1)
    | none => if x = c then some 0 else none

/-- `urlToLabel` (src/main.go lines 35-41): when the name contains a
slash, keep only the text after the last slash; otherwise return the
name unchanged. -/
def urlToLabelCore (name : List Char) : List Char :=
  match lastIndexOf '/' name with
  | some i => name.drop (i + 1)
  | none => name

/-- Modelled from the spec: the URL label is the final path segment, the
text after the last `/` (the whole string when no `/` occurs), here
phrased as the longest slash-free suffix. -/
def urlToLabelSpecCore (name : List Char) : List Char :=
  (name.reverse.takeWhile (fun c => c ≠ '/')).reverse

/-- String wrapper for `urlToLabelCore`. -/
def urlToLabel (name : String) : String :=
  ⟨urlToLabelCore name.data⟩

/-- First character class of the Go regular expression
`[a-zA-Z_:][a-zA-Z0-9_:]*` in `makeLegacyLabel` (src/main.go line 47). -/
def isIdentStart (c : Char) : Bool :=
  c.isAlpha || c = '_' || c = ':'

/-- Continuation character class of the same regular expression. -/
def isIdentCont (c : Char) : Bool :=
  c.isAlphanum || c = '_' || c = ':'

/-- `strings.ReplaceAll(name, string(a), string(b))` for one-character
patterns (src/main.go lines 44-45). -/
def replaceAllChar (a b : Char) (name : List Char) : List Char :=
  name.map (fun c => if c = a then b else c)

/-- Longest run of continuation characters together with the rest of the
input, used to take one maximal regex match. -/
def takeMatch : List Char → List Char × List Char
  | [] => ([], [])
  | c :: cs =>
    if isIdentCont c then
      let r := takeMatch cs
      (c :: r.1, r.2)
    else ([], cs)

theorem takeMatch_rest_length (l : List Char) : (takeMatch l).2.length ≤ l.length := by
  induction l with
  | nil => simp [takeMatch]
  | cons c cs ih =>
    by_cases h : isIdentCont c = true
    · simpa [takeMatch, h] using Nat.le_succ_of_le ih
    · simp [takeMatch, h]

/-- `regexp.FindAllString` for the pattern `[a-zA-Z_:][a-zA-Z0-9_:]*`
(src/main.go line 48): the successive leftmost maximal matches. -/
def findAllIdent : List Char → List (List Char)
  | [] => []
  | c :: cs =>
    if isIdentStart c then
      (c :: (takeMatch cs).1) :: findAllIdent (takeMatch cs).2
    else findAllIdent cs
termination_by l => l.length
decreasing_by
  all_goals simp_wf
  all_goals exact Nat.lt_succ_of_le (takeMatch_rest_length _)

/-- `makeLegacyLabel` (src/main.go lines 43-50): replace every `.` and
every space by `_`, then join all maximal identifier-safe matches with
no separator. -/
def makeLegacyLabelCore (name : List Char) : List Char :=
  (findAllIdent (replaceAllChar ' ' '_' (replaceAllChar '.' '_' name))).flatten

/-- String wrapper for `makeLegacyLabelCore`. -/
def makeLegacyLabel (name : String) : String :=
  ⟨makeLegacyLabelCore name.data⟩

/-- Modelled from the spec: a one-pass scanner realization of "replace
every `.` and space character with `_`, then concatenate, in order, all
maximal substrings matching `[a-zA-Z_:][a-zA-Z0-9_:]*`". The flag
records whether the scanner is inside a match. -/
def scanMatches : Bool → List Char → List Char
  | _, [] => []
  | false, c :: cs =>
    if isIdentStart c then c :: scanMatches true cs else scanMatches false cs
  | true, c :: cs =>
    if isIdentCont c then c :: scanMatches true cs else scanMatches false cs

/-- Modelled from the spec: the legacy transform as substitution followed
by the scanner. -/
def legacyLabelSpecCore (name : List Char) : List Char :=
  scanMatches false (name.map (fun c => if c = '.' ∨ c = ' ' then '_' else c))

/-- The gauge registry: current listener count per
(server label, url label) metric key, absent keys mapped to `none`. -/
def Registry : Type := String × String → Option Int

/-- `listeners.WithLabelValues(labelServer, labelURL).Set(v)`: set one
key, keeping every other key's value. -/
def registryUpdate (reg : Registry) (key : String × String) (v : Int) : Registry :=
  fun k => if k = key then some v else reg k

/-- Label computation of src/main.go lines 110-115: server label is the
raw server name, URL label is `urlToLabel` of the listen URL, and in
legacy mode both pass through `makeLegacyLabel`. -/
def normalizeKey (legacyLabel : Bool) (s : Stream) : String × String :=
  let labelServer := s.serverName
  let labelURL := urlToLabel s.listenURL
  if legacyLabel then (makeLegacyLabel labelServer, makeLegacyLabel labelURL)
  else (labelServer, labelURL)

/-- The per-record filter condition of src/main.go line 109. -/
def passesFilter (serverName : String) (s : Stream) : Bool :=
  s.serverName == serverName || serverName == ""

/-- The record loop of src/main.go lines 108-120: for each stream that
passes the filter, update the registry at its normalized key and
dispatch one fire-and-forget vclock push; returns the final registry,
the dispatched pushes `(clock, listeners)` in order, and the records
that passed the filter in order. -/
def processStreams (serverName clock : String) (legacyLabel : Bool)
    (reg : Registry) : List Stream → Registry × List (String × Int) × List Stream
  | [] => (reg, [], [])
  | s :: rest =>
    if passesFilter serverName s then
      let r := processStreams serverName clock legacyLabel
        (registryUpdate reg (normalizeKey legacyLabel s) s.listeners) rest
      (r.1, (clock, s.listeners) :: r.2.1, s :: r.2.2)
    else processStreams serverName clock legacyLabel reg rest

/-- Observable outcome of one iteration of the polling loop. `panicked`
records the unrecovered nil-pointer dereference of
`resp.Icestats.Source` at src/main.go line 108, which kills the
process; `registry` is the registry state when the iteration ends (or
at the moment of death). -/
structure CycleOutput where
  registry : Registry
  logged : Bool
  pushes : List (String × Int)
  processed : List Stream
  panicked : Bool

/-- One iteration of the loop body in `updateListeners`
(src/main.go lines 103-121): on fetch error, log and leave the registry
alone; on a nil decoded pointer (body `null`), the field access
`resp.Icestats.Source` on line 108 panics before any record is
processed, terminating the process with the registry untouched;
otherwise process every stream of the decoded snapshot. -/
def runCycle (serverName clock : String) (legacyLabel : Bool)
    (reg : Registry) (fr : FetchResult) : CycleOutput :=
  match LoadIcecastStatus fr with
  | Except.error _ => ⟨reg, true, [], [], false⟩
  | Except.ok none => ⟨reg, false, [], [], true⟩
  | Except.ok (some resp) =>
    let r := processStreams serverName clock legacyLabel reg resp.icestats.source
    ⟨r.1, false, r.2.1, r.2.2, false⟩

/-- The registry after a sequence of poll cycles; once a cycle panics
the process is dead, so later cycles never run and the registry stays
at its state at the moment of death. -/
def runCycles (serverName clock : String) (legacyLabel : Bool)
    (reg : Registry) : List FetchResult → Registry
  | [] => reg
  | fr :: rest =>
    if (runCycle serverName clock legacyLabel reg fr).panicked then
      (runCycle serverName clock legacyLabel reg fr).registry
    else
      runCycles serverName clock legacyLabel
        (runCycle serverName clock legacyLabel reg fr).registry rest

/-- The URL built by `publishVClock` (src/main.go line 88). -/
def vclockURL (clock : String) (listeners : Int) : String :=
  "http://" ++ clock ++ "/?Command=SetMem=Listeners," ++ toString listeners

/-- Observable effects of one `publishVClock` call: the outbound GET
requests it attempts and the log lines it emits. -/
structure PublishEffect where
  requests : List String
  logs : List String
  deriving DecidableEq

/-- `publishVClock` (src/main.go lines 87-98): unconditionally attempt
one GET of `vclockURL` — there is no empty-target check — and return
without logging, retrying or surfacing anything whatever the transport
outcome `net` assigns to the URL. -/
def publishVClock (clock : String) (listeners : Int)
    (net : String → Except Unit Json) : PublishEffect :=
  let s := vclockURL clock listeners
  match net s with
  | Except.error _ => { requests := [s], logs := [] }
  | Except.ok _ => { requests := [s], logs := [] }

/-- The Idle sleep after each cycle (src/main.go line 123): the code
sleeps a hard-coded `15 * time.Second` even though `updateListeners`
receives the configured interval `wait` from the `-interval` flag. -/
def cycleSleepSeconds (wait : Nat) : Nat :=
  let _ := wait
  15

end Icecast

namespace Icecast

/-! ### Helper lemmas about list scanning -/

theorem lastIndexOf_eq_none_iff (c : Char) (l : List Char) :
    lastIndexOf c l = none ↔ c ∉ l := by
  induction l with
  | nil => simp [lastIndexOf]
  | cons x xs ih =>
    simp only [lastIndexOf, List.mem_cons]
    cases h : lastIndexOf c xs with
    | some i =>
      have hmem : c ∈ xs := by
        by_contra hc
        rw [← ih] at hc
        simp [h] at hc
      simp [hmem]
    | none =>
      have hnot : c ∉ xs := ih.mp h
      by_cases hx : x = c
      · simp [hx]
      · have hcx : ¬c = x := fun hcx => hx hcx.symm
        simp [hx, hnot, hcx]

theorem takeWhile_append_of_all {p : Char → Bool} {l₁ : List Char} (l₂ : List Char)
    (h : ∀ a ∈ l₁, p a = true) :
    (l₁ ++ l₂).takeWhile p = l₁ ++ l₂.takeWhile p := by
  induction l₁ with
  | nil => simp
  | cons a t ih =>
    have ha : p a = true := h a (List.mem_cons_self a t)
    simp only [List.cons_append, List.takeWhile_cons, ha, if_true]
    rw [ih (fun b hb => h b (List.mem_cons_of_mem a hb))]

theorem takeWhile_append_of_stop {p : Char → Bool} {l₁ : List Char} (l₂ : List Char)
    {a : Char} (ha : a ∈ l₁) (hpa : p a = false) :
    (l₁ ++ l₂).takeWhile p = l₁.takeWhile p := by
  induction l₁ with
  | nil => cases ha
  | cons b t ih =>
    rcases List.mem_cons.mp ha with rfl | hmem
    · simp [List.takeWhile_cons, hpa]
    · by_cases hb : p b = true
      · simp only [List.cons_append, List.takeWhile_cons, hb, if_true]
        rw [ih hmem]
      · simp [List.takeWhile_cons, hb]

theorem urlToLabelCore_eq_spec (l : List Char) :
    urlToLabelCore l = urlToLabelSpecCore l := by
  induction l with
  | nil => rfl
  | cons x xs ih =>
    simp only [urlToLabelCore, urlToLabelSpecCore, lastIndexOf] at *
    cases h : lastIndexOf '/' xs with
    | some i =>
      have hmem : '/' ∈ xs := by
        by_contra hc
        rw [← lastIndexOf_eq_none_iff] at hc
        simp [h] at hc
      have hrev : '/' ∈ xs.reverse := List.mem_reverse.mpr hmem
      have hstop : (fun c : Char => decide (c ≠ '/')) '/' = false := by decide
      rw [h] at ih
      simp only [List.reverse_cons]
      rw [takeWhile_append_of_stop [x] hrev hstop]
      rw [← ih]
      simp [List.drop_succ_cons]
    | none =>
      have hnot : '/' ∉ xs := (lastIndexOf_eq_none_iff '/' xs).mp h
      have hall : ∀ a ∈ xs.reverse, (fun c : Char => decide (c ≠ '/')) a = true := by
        intro a hamem
        have : a ∈ xs := List.mem_reverse.mp hamem
        simp only [decide_eq_true_eq]
        intro hEq
        exact hnot (hEq ▸ this)
      by_cases hx : x = '/'
      · simp only [hx, if_pos rfl]
        simp only [List.reverse_cons]
        rw [takeWhile_append_of_all ['/'] hall]
        simp [List.takeWhile_cons]
      · simp only [hx, if_neg hx]
        simp only [List.reverse_cons]
        rw [takeWhile_append_of_all [x] hall]
        have hxp : (fun c : Char => decide (c ≠ '/')) x = true := by
          simp [hx]
        simp [List.takeWhile_cons, hxp, hx]

end Icecast

namespace Icecast

/-- C6: for every URL string, `urlToLabel` returns the text after the
last `/` when the string contains a `/` (equivalently, it agrees with
the longest slash-free suffix), and returns the whole string unchanged
when it contains no `/`; `"http://host/stream.mp3"` maps to
`"stream.mp3"`. -/
theorem C6_urlToLabel_final_segment :
    (∀ l : List Char, urlToLabelCore l = urlToLabelSpecCore l) ∧
    (∀ l : List Char, '/' ∉ l → urlToLabelCore l = l) ∧
    urlToLabel "http://host/stream.mp3" = "stream.mp3" ∧
    urlToLabel "nohost" = "nohost" := by
  refine ⟨urlToLabelCore_eq_spec, ?_, by decide, by decide⟩
  intro l h
  rw [urlToLabelCore_eq_spec]
  unfold urlToLabelSpecCore
  rw [List.takeWhile_eq_self_iff.mpr, List.reverse_reverse]
  intro x hx
  have hxl : x ∈ l := List.mem_reverse.mp hx
  simp only [decide_eq_true_eq]
  intro hEq
  exact h (hEq ▸ hxl)

/-- Witness for C6: the no-slash hypothesis discharged at "nohost". -/
theorem C6_urlToLabel_final_segment_witness :
    urlToLabelCore "nohost".data = "nohost".data :=
  C6_urlToLabel_final_segment.2.1 "nohost".data (by decide)

/-- C3 (evidence of the code bug): the Idle sleep of the polling loop is
hard-coded to 15 seconds, so with a configured interval of 30 the sleep
is still 15 seconds, not 30. -/
theorem C3_sleep_hardcoded :
    cycleSleepSeconds 30 = 15 ∧ cycleSleepSeconds 30 ≠ 30 := by decide

/-- C4 counterexample: with an empty target address, `publishVClock`
still attempts one outbound request — to the host-less URL
`http:///?Command=SetMem=Listeners,5` — so it is not a no-op that
performs no outbound request. -/
theorem C4_counterexample :
    (publishVClock "" 5 (fun _ => Except.error ())).requests ≠ [] ∧
    (publishVClock "" 5 (fun _ => Except.error ())).requests
      = ["http:///?Command=SetMem=Listeners,5"] := by
  constructor
  · decide
  · decide

/-- C4 amended: for every target address — the empty string included —
and every listener count, `publishVClock` issues exactly one outbound
GET request, to `vclockURL clock n` which encodes the count, and
regardless of the transport outcome it emits no log line, performs no
retry, and surfaces nothing: the observable effect is the same on
transport error as on success. -/
theorem C4_publish_one_request_errors_discarded (clock : String) (n : Int)
    (net : String → Except Unit Json) :
    publishVClock clock n net = { requests := [vclockURL clock n], logs := [] } := by
  cases h : net (vclockURL clock n) <;> simp [publishVClock, h]

end Icecast

namespace Icecast

/-! ### Helper lemmas about the record-processing loop -/

theorem processStreams_cons_pos (serverName clock : String) (legacyLabel : Bool)
    (reg : Registry) (s : Stream) (rest : List Stream)
    (hp : passesFilter serverName s = true) :
    processStreams serverName clock legacyLabel reg (s :: rest)
      = ((processStreams serverName clock legacyLabel
            (registryUpdate reg (normalizeKey legacyLabel s) s.listeners) rest).1,
         (clock, s.listeners) :: (processStreams serverName clock legacyLabel
            (registryUpdate reg (normalizeKey legacyLabel s) s.listeners) rest).2.1,
         s :: (processStreams serverName clock legacyLabel
            (registryUpdate reg (normalizeKey legacyLabel s) s.listeners) rest).2.2) := by
  simp [processStreams, hp]

theorem processStreams_cons_neg (serverName clock : String) (legacyLabel : Bool)
    (reg : Registry) (s : Stream) (rest : List Stream)
    (hp : ¬passesFilter serverName s = true) :
    processStreams serverName clock legacyLabel reg (s :: rest)
      = processStreams serverName clock legacyLabel reg rest := by
  simp [processStreams, hp]

theorem processStreams_registry (serverName clock : String) (legacyLabel : Bool)
    (l : List Stream) :
    ∀ (reg : Registry) (key : String × String),
    (processStreams serverName clock legacyLabel reg l).1 key
      = (((l.filter (passesFilter serverName)).filter
          (fun s => decide (normalizeKey legacyLabel s = key))).getLast?).elim (reg key)
          (fun s => some s.listeners) := by
  induction l with
  | nil => intro reg key; rfl
  | cons s rest ih =>
    intro reg key
    by_cases hp : passesFilter serverName s = true
    · rw [processStreams_cons_pos serverName clock legacyLabel reg s rest hp]
      by_cases hk : normalizeKey legacyLabel s = key
      · have hfil : (List.filter (passesFilter serverName) (s :: rest)).filter
            (fun s => decide (normalizeKey legacyLabel s = key))
            = s :: (List.filter (passesFilter serverName) rest).filter
                (fun s => decide (normalizeKey legacyLabel s = key)) := by
          simp [List.filter_cons, hp, hk]
        rw [hfil, ih]
        cases hlast : ((rest.filter (passesFilter serverName)).filter
            (fun s => decide (normalizeKey legacyLabel s = key))).getLast? with
        | none =>
          have hnil := List.getLast?_eq_none_iff.mp hlast
          rw [hnil]
          simp [registryUpdate, hk]
        | some t =>
          cases hhits : (rest.filter (passesFilter serverName)).filter
              (fun s => decide (normalizeKey legacyLabel s = key)) with
          | nil => rw [hhits] at hlast; simp at hlast
          | cons a as =>
            rw [hhits] at hlast
            rw [List.getLast?_cons_cons, hlast]
            rfl
      · have hfil : (List.filter (passesFilter serverName) (s :: rest)).filter
            (fun s => decide (normalizeKey legacyLabel s = key))
            = (List.filter (passesFilter serverName) rest).filter
                (fun s => decide (normalizeKey legacyLabel s = key)) := by
          simp [List.filter_cons, hp, hk]
        rw [hfil, ih]
        have hupd : registryUpdate reg (normalizeKey legacyLabel s) s.listeners key
            = reg key := by
          simp only [registryUpdate]
          rw [if_neg (fun hEq : key = normalizeKey legacyLabel s => hk hEq.symm)]
        rw [hupd]
    · rw [processStreams_cons_neg serverName clock legacyLabel reg s rest hp]
      have hfil : List.filter (passesFilter serverName) (s :: rest)
          = List.filter (passesFilter serverName) rest := by
        simp [List.filter_cons, hp]
      rw [hfil]
      exact ih reg key

theorem processStreams_processed (serverName clock : String) (legacyLabel : Bool)
    (l : List Stream) :
    ∀ reg : Registry,
    (processStreams serverName clock legacyLabel reg l).2.2
      = l.filter (passesFilter serverName) := by
  induction l with
  | nil => intro reg; rfl
  | cons s rest ih =>
    intro reg
    by_cases hp : passesFilter serverName s = true
    · rw [processStreams_cons_pos serverName clock legacyLabel reg s rest hp]
      simp only [List.filter_cons, hp, if_true]
      rw [ih]
    · rw [processStreams_cons_neg serverName clock legacyLabel reg s rest hp]
      have hfil : List.filter (passesFilter serverName) (s :: rest)
          = List.filter (passesFilter serverName) rest := by
        simp [List.filter_cons, hp]
      rw [hfil]
      exact ih reg

theorem processStreams_isSome_mono (serverName clock : String) (legacyLabel : Bool)
    (l : List Stream) (reg : Registry) (key : String × String)
    (h : (reg key).isSome = true) :
    ((processStreams serverName clock legacyLabel reg l).1 key).isSome = true := by
  rw [processStreams_registry]
  cases ((l.filter (passesFilter serverName)).filter
      (fun s => decide (normalizeKey legacyLabel s = key))).getLast? with
  | none => exact h
  | some t => rfl

theorem runCycle_isSome_mono (serverName clock : String) (legacyLabel : Bool)
    (reg : Registry) (fr : FetchResult) (key : String × String)
    (h : (reg key).isSome = true) :
    ((runCycle serverName clock legacyLabel reg fr).registry key).isSome = true := by
  cases fr with
  | transportError => exact h
  | response st body =>
    cases hd : decodeStatusRootLenient body with
    | none => simpa [runCycle, LoadIcecastStatus, hd] using h
    | some resp =>
      simpa [runCycle, LoadIcecastStatus, hd] using
        processStreams_isSome_mono serverName clock legacyLabel
          resp.icestats.source reg key h

theorem runCycles_isSome_mono (serverName clock : String) (legacyLabel : Bool)
    (frs : List FetchResult) :
    ∀ (reg : Registry) (key : String × String), (reg key).isSome = true →
    ((runCycles serverName clock legacyLabel reg frs) key).isSome = true := by
  induction frs with
  | nil => intro reg key h; exact h
  | cons fr rest ih =>
    intro reg key h
    have hstep := runCycle_isSome_mono serverName clock legacyLabel reg fr key h
    by_cases hp : (runCycle serverName clock legacyLabel reg fr).panicked = true
    · simpa [runCycles, hp] using hstep
    · simpa [runCycles, hp] using
        ih (runCycle serverName clock legacyLabel reg fr).registry key hstep

end Icecast

namespace Icecast

/-- C1: `Source.UnmarshalJSON` succeeds if and only if the document
unmarshals as an array of stream objects or as a single stream object:
when the array attempt succeeds the snapshot is that array (order
preserved, as the final conjunct exhibits on a two-element array); when
it fails but the single-object attempt succeeds the result is the
one-element snapshot; when both fail, decoding fails with the decode
error. -/
theorem C1_unmarshal_two_shapes (j : Json) :
    (∀ l : List Stream, parseStreamList j = some l → unmarshalSource j = Except.ok l) ∧
    (parseStreamList j = none → ∀ s : Stream, parseStream j = some s →
      unmarshalSource j = Except.ok [s]) ∧
    (parseStreamList j = none → parseStream j = none →
      unmarshalSource j = Except.error "error parsing icestats source") ∧
    ((∃ l, unmarshalSource j = Except.ok l) ↔
      (∃ l, parseStreamList j = some l) ∨ (∃ s, parseStream j = some s)) ∧
    unmarshalSource (Json.arr [Json.obj [("listeners", Json.num 1)],
        Json.obj [("listeners", Json.num 2)]])
      = Except.ok [⟨1, "", ""⟩, ⟨2, "", ""⟩] := by
  refine ⟨?_, ?_, ?_, ?_, by decide⟩
  · intro l hl
    simp [unmarshalSource, hl]
  · intro h1 s h2
    simp [unmarshalSource, h1, h2]
  · intro h1 h2
    simp [unmarshalSource, h1, h2]
  · cases h1 : parseStreamList j with
    | some l => simp [unmarshalSource, h1]
    | none =>
      cases h2 : parseStream j with
      | some s => simp [unmarshalSource, h1, h2]
      | none => simp [unmarshalSource, h1, h2]

/-- Witness for C1: a single stream object, on which the array attempt
fails and the fallback wraps the object. -/
theorem C1_unmarshal_two_shapes_witness :
    parseStreamList (Json.obj [("listeners", Json.num 5)]) = none ∧
    parseStream (Json.obj [("listeners", Json.num 5)]) = some ⟨5, "", ""⟩ ∧
    unmarshalSource (Json.obj [("listeners", Json.num 5)]) = Except.ok [⟨5, "", ""⟩] :=
  ⟨by decide, by decide,
    (C1_unmarshal_two_shapes (Json.obj [("listeners", Json.num 5)])).2.1
      (by decide) ⟨5, "", ""⟩ (by decide)⟩

/-- C2 counterexample (at filter "", clock "", legacy off, empty
registry): a poll cycle whose fetch yields a non-success HTTP response
(status 500) with a body decoding to a one-stream snapshot logs nothing
(`logged = false`, the claim demands a log) and mutates the registry at
key ("a","u") from `none` to `some 5` (the claim demands it be left
exactly as it was): the code never inspects the status code. -/
theorem C2_counterexample :
    (runCycle "" "" false (fun _ => none)
      (FetchResult.response 500 (Json.obj [("icestats", Json.obj [("source",
        Json.arr [Json.obj [("listeners", Json.num 5), ("server_name", Json.str "a"),
          ("listenurl", Json.str "u")]])])]))).logged = false ∧
    (runCycle "" "" false (fun _ => none)
      (FetchResult.response 500 (Json.obj [("icestats", Json.obj [("source",
        Json.arr [Json.obj [("listeners", Json.num 5), ("server_name", Json.str "a"),
          ("listenurl", Json.str "u")]])])]))).registry ("a", "u") = some 5 ∧
    (fun _ : String × String => (none : Option Int)) ("a", "u") = none :=
  ⟨rfl, by decide, rfl⟩

/-- C2 amended: on transport failure the cycle logs the condition,
leaves the registry exactly as it was, and does not panic. A received
HTTP response is never logged, whatever its status code — the decode
error on src/main.go line 82 is discarded. If the body is the JSON
literal `null`, `Decode` nils the `*StatusRoot` pointer and the
dereference `resp.Icestats.Source` on line 108 panics, terminating the
process with the registry untouched. Any other body whose lenient
decode yields an empty snapshot — which is what every non-null decode
failure produces — leaves the registry exactly as it was, without
panic. -/
theorem C2_amended (serverName clock : String) (legacyLabel : Bool) (reg : Registry) :
    ((runCycle serverName clock legacyLabel reg FetchResult.transportError).logged = true ∧
     (runCycle serverName clock legacyLabel reg FetchResult.transportError).registry = reg ∧
     (runCycle serverName clock legacyLabel reg FetchResult.transportError).panicked
       = false) ∧
    (∀ (st : Nat) (body : Json),
      (runCycle serverName clock legacyLabel reg (FetchResult.response st body)).logged
        = false) ∧
    (∀ st : Nat,
      (runCycle serverName clock legacyLabel reg
        (FetchResult.response st Json.null)).panicked = true ∧
      (runCycle serverName clock legacyLabel reg
        (FetchResult.response st Json.null)).registry = reg) ∧
    (∀ (st : Nat) (body : Json) (root : StatusRoot),
      decodeStatusRootLenient body = some root → root.icestats.source = [] →
      (runCycle serverName clock legacyLabel reg (FetchResult.response st body)).registry
          = reg ∧
      (runCycle serverName clock legacyLabel reg (FetchResult.response st body)).panicked
          = false) := by
  refine ⟨⟨rfl, rfl, rfl⟩, ?_, fun st => ⟨rfl, rfl⟩, ?_⟩
  · intro st body
    cases hd : decodeStatusRootLenient body with
    | none => simp [runCycle, LoadIcecastStatus, hd]
    | some root => simp [runCycle, LoadIcecastStatus, hd]
  · intro st body root hroot hempty
    constructor
    · simp only [runCycle, LoadIcecastStatus, hroot, hempty, processStreams]
    · simp [runCycle, LoadIcecastStatus, hroot]

/-- Witness for C2 amended: a body that matches neither schema (a bare
JSON string) decodes to a non-nil pointer with an empty snapshot, and
the registry is returned unchanged with no panic. -/
theorem C2_amended_witness :
    decodeStatusRootLenient (Json.str "junk") = some ⟨⟨[]⟩⟩ ∧
    (runCycle "" "" false (fun _ => none)
      (FetchResult.response 200 (Json.str "junk"))).registry = (fun _ => none) ∧
    (runCycle "" "" false (fun _ => none)
      (FetchResult.response 200 (Json.str "junk"))).panicked = false :=
  ⟨by decide,
    ((C2_amended "" "" false (fun _ => none)).2.2.2 200 (Json.str "junk") ⟨⟨[]⟩⟩
      (by decide) rfl).1,
    ((C2_amended "" "" false (fun _ => none)).2.2.2 200 (Json.str "junk") ⟨⟨[]⟩⟩
      (by decide) rfl).2⟩

/-- C7: in every poll cycle the records passed on to normalization and
registry update are exactly the snapshot records passing the server-name
filter of src/main.go line 109; a non-empty filter passes exactly the
records whose serverName equals it (exact, case-sensitive equality), and
an empty filter passes every record. -/
theorem C7_filter_exact_equality (serverName clock : String) (legacyLabel : Bool)
    (reg : Registry) (st : Nat) (body : Json) :
    ((runCycle serverName clock legacyLabel reg (FetchResult.response st body)).processed
      = (snapshotOf body).filter (passesFilter serverName)) ∧
    (∀ s : Stream, serverName ≠ "" →
      (passesFilter serverName s = true ↔ s.serverName = serverName)) ∧
    (∀ s : Stream, serverName = "" → passesFilter serverName s = true) := by
  refine ⟨?_, ?_, ?_⟩
  · cases hd : decodeStatusRootLenient body with
    | none => simp [runCycle, LoadIcecastStatus, hd, snapshotOf]
    | some resp =>
      have hp := processStreams_processed serverName clock legacyLabel
        resp.icestats.source reg
      simpa [runCycle, LoadIcecastStatus, hd, snapshotOf] using hp
  · intro s hne
    simp [passesFilter, hne]
  · intro s hEq
    simp [passesFilter, hEq]

/-- Witness for C7: the non-empty-filter hypothesis discharged at filter
"a", showing the pass condition is equivalent to exact name equality. -/
theorem C7_filter_exact_equality_witness :
    ("a" : String) ≠ "" ∧
    (passesFilter "a" ⟨3, "a", "u"⟩ = true ↔ ("a" : String) = "a") :=
  ⟨by decide,
    (C7_filter_exact_equality "a" "" false (fun _ => none) 200 Json.null).2.1
      ⟨3, "a", "u"⟩ (by decide)⟩

/-- C8: within one successful poll cycle, when at least two passing
records normalize to the same metric key, the registry's final value at
that key is the listener count of the LAST such record in snapshot
order — one overwritten entry, not a sum. -/
theorem C8_last_write_wins (serverName clock : String) (legacyLabel : Bool)
    (reg : Registry) (st : Nat) (body : Json) (key : String × String)
    (h : 2 ≤ (((snapshotOf body).filter (passesFilter serverName)).filter
        (fun s => decide (normalizeKey legacyLabel s = key))).length) :
    ∃ slast : Stream,
      (((snapshotOf body).filter (passesFilter serverName)).filter
          (fun s => decide (normalizeKey legacyLabel s = key))).getLast? = some slast ∧
      (runCycle serverName clock legacyLabel reg (FetchResult.response st body)).registry key
        = some slast.listeners := by
  cases hlast : (((snapshotOf body).filter (passesFilter serverName)).filter
      (fun s => decide (normalizeKey legacyLabel s = key))).getLast? with
  | none =>
    have hnil := List.getLast?_eq_none_iff.mp hlast
    rw [hnil] at h
    simp at h
  | some slast =>
    refine ⟨slast, rfl, ?_⟩
    cases hd : decodeStatusRootLenient body with
    | none =>
      have hsnap : snapshotOf body = [] := by simp [snapshotOf, hd]
      rw [hsnap] at hlast
      simp at hlast
    | some resp =>
      have hsnap : snapshotOf body = resp.icestats.source := by simp [snapshotOf, hd]
      rw [hsnap] at hlast
      have hreg := processStreams_registry serverName clock legacyLabel
        resp.icestats.source reg key
      rw [hlast] at hreg
      simp only [runCycle, LoadIcecastStatus, hd]
      exact hreg

end Icecast

namespace Icecast

/-- C9: once a metric key is present in the gauge registry it is never
removed: after any sequence of further poll cycles the key still holds
some value; and a cycle that does not write the key — a transport
failure, or a response none of whose passing records normalizes to the
key — leaves its most recently written value in place. -/
theorem C9_keys_persist (serverName clock : String) (legacyLabel : Bool)
    (reg : Registry) (key : String × String) (v : Int) (h : reg key = some v) :
    (∀ frs : List FetchResult, ∃ v',
      runCycles serverName clock legacyLabel reg frs key = some v') ∧
    ((runCycle serverName clock legacyLabel reg FetchResult.transportError).registry key
      = some v) ∧
    (∀ (st : Nat) (body : Json),
      (((snapshotOf body).filter (passesFilter serverName)).filter
        (fun s => decide (normalizeKey legacyLabel s = key))).getLast? = none →
      (runCycle serverName clock legacyLabel reg (FetchResult.response st body)).registry key
        = some v) := by
  refine ⟨?_, h, ?_⟩
  · intro frs
    have hsome : (reg key).isSome = true := by rw [h]; rfl
    exact Option.isSome_iff_exists.mp
      (runCycles_isSome_mono serverName clock legacyLabel frs reg key hsome)
  · intro st body hnone
    cases hd : decodeStatusRootLenient body with
    | none => simpa [runCycle, LoadIcecastStatus, hd] using h
    | some resp =>
      have hsnap : snapshotOf body = resp.icestats.source := by simp [snapshotOf, hd]
      rw [hsnap] at hnone
      have hreg := processStreams_registry serverName clock legacyLabel
        resp.icestats.source reg key
      rw [hnone] at hreg
      simp only [runCycle, LoadIcecastStatus, hd]
      exact hreg.trans h

/-- Witness for C9: a key written once survives a transport-failure
cycle followed by an unparseable-body cycle. -/
theorem C9_keys_persist_witness :
    registryUpdate (fun _ => none) ("a", "u") 3 ("a", "u") = some 3 ∧
    ∃ v', runCycles "" "" false (registryUpdate (fun _ => none) ("a", "u") 3)
      [FetchResult.transportError, FetchResult.response 200 (Json.str "junk")]
      ("a", "u") = some v' :=
  ⟨by decide,
    (C9_keys_persist "" "" false (registryUpdate (fun _ => none) ("a", "u") 3)
      ("a", "u") 3 (by decide)).1
      [FetchResult.transportError, FetchResult.response 200 (Json.str "junk")]⟩

end Icecast

namespace Icecast

/-! ### Helper lemmas about the legacy-label scanner -/

theorem identStart_cont {c : Char} (h : isIdentStart c = true) : isIdentCont c = true := by
  simp only [isIdentStart, isIdentCont, Char.isAlphanum, Bool.or_eq_true, decide_eq_true_eq] at *
  tauto

theorem scanMatches_true_takeMatch (l : List Char) :
    scanMatches true l = (takeMatch l).1 ++ scanMatches false (takeMatch l).2 := by
  induction l with
  | nil => rfl
  | cons c cs ih =>
    by_cases hc : isIdentCont c = true
    · simp [scanMatches, takeMatch, hc, ih]
    · simp [scanMatches, takeMatch, hc]

theorem scanMatches_false_eq_flatten (l : List Char) :
    scanMatches false l = (findAllIdent l).flatten := by
  have H : ∀ n (l : List Char), l.length ≤ n →
      scanMatches false l = (findAllIdent l).flatten := by
    intro n
    induction n with
    | zero =>
      intro l hl
      have : l = [] := List.eq_nil_of_length_eq_zero (Nat.le_zero.mp hl)
      subst this
      simp [findAllIdent, scanMatches]
    | succ n ih =>
      intro l hl
      cases l with
      | nil => simp [findAllIdent, scanMatches]
      | cons c cs =>
        have hcs : cs.length ≤ n := Nat.le_of_succ_le_succ hl
        by_cases hc : isIdentStart c = true
        · have hfa : findAllIdent (c :: cs)
              = (c :: (takeMatch cs).1) :: findAllIdent (takeMatch cs).2 := by
            simp [findAllIdent, hc]
          rw [hfa]
          simp only [scanMatches, hc, if_true]
          rw [scanMatches_true_takeMatch,
            ih (takeMatch cs).2 (Nat.le_trans (takeMatch_rest_length cs) hcs)]
          simp
        · have hfa : findAllIdent (c :: cs) = findAllIdent cs := by
            simp [findAllIdent, hc]
          rw [hfa]
          simp only [scanMatches, hc, if_false]
          exact ih cs hcs
  exact H l.length l (Nat.le_refl _)

theorem replaceAll_dot_space (l : List Char) :
    replaceAllChar ' ' '_' (replaceAllChar '.' '_' l)
      = l.map (fun c => if c = '.' ∨ c = ' ' then '_' else c) := by
  simp only [replaceAllChar, List.map_map]
  apply List.map_congr_left
  intro c _
  by_cases h1 : c = '.'
  · simp [h1, Function.comp]
  · by_cases h2 : c = ' '
    · simp [h1, h2, Function.comp]
    · simp [h1, h2, Function.comp]

theorem makeLegacyLabelCore_eq_scan (l : List Char) :
    makeLegacyLabelCore l
      = scanMatches false (l.map (fun c => if c = '.' ∨ c = ' ' then '_' else c)) := by
  unfold makeLegacyLabelCore
  rw [replaceAll_dot_space, scanMatches_false_eq_flatten]

theorem scanMatches_mem_cont (l : List Char) :
    ∀ (b : Bool) (c : Char), c ∈ scanMatches b l → isIdentCont c = true := by
  induction l with
  | nil => intro b c h; cases b <;> simp [scanMatches] at h
  | cons x xs ih =>
    intro b c h
    cases b with
    | false =>
      by_cases hx : isIdentStart x = true
      · simp only [scanMatches, hx, if_true] at h
        rcases List.mem_cons.mp h with rfl | hmem
        · exact identStart_cont hx
        · exact ih true c hmem
      · simp only [scanMatches, hx, if_false] at h
        exact ih false c h
    | true =>
      by_cases hx : isIdentCont x = true
      · simp only [scanMatches, hx, if_true] at h
        rcases List.mem_cons.mp h with rfl | hmem
        · exact hx
        · exact ih true c hmem
      · simp only [scanMatches, hx, if_false] at h
        exact ih false c h

theorem scanMatches_false_head_start (l : List Char) :
    ∀ (c : Char) (rest : List Char), scanMatches false l = c :: rest →
      isIdentStart c = true := by
  induction l with
  | nil => intro c rest h; simp [scanMatches] at h
  | cons x xs ih =>
    intro c rest h
    by_cases hx : isIdentStart x = true
    · simp only [scanMatches, hx, if_true] at h
      injection h with h1 h2
      rw [← h1]
      exact hx
    · simp only [scanMatches, hx, if_false] at h
      exact ih c rest h

theorem scanMatches_true_fixpoint (l : List Char)
    (h : ∀ c ∈ l, isIdentCont c = true) :
    scanMatches true l = l := by
  induction l with
  | nil => rfl
  | cons c cs ih =>
    have hc := h c (List.mem_cons_self c cs)
    simp only [scanMatches, hc, if_true]
    rw [ih (fun x hx => h x (List.mem_cons_of_mem c hx))]

theorem scanMatches_false_fixpoint (l : List Char)
    (hcont : ∀ c ∈ l, isIdentCont c = true)
    (hhead : ∀ (c : Char) (rest : List Char), l = c :: rest → isIdentStart c = true) :
    scanMatches false l = l := by
  cases l with
  | nil => rfl
  | cons c rest =>
    have hc := hhead c rest rfl
    simp only [scanMatches, hc, if_true]
    rw [scanMatches_true_fixpoint rest (fun x hx => hcont x (List.mem_cons_of_mem c hx))]

theorem map_subst_id_of_cont (l : List Char)
    (h : ∀ c ∈ l, isIdentCont c = true) :
    l.map (fun c => if c = '.' ∨ c = ' ' then '_' else c) = l := by
  have heq : l.map (fun c => if c = '.' ∨ c = ' ' then '_' else c) = l.map id := by
    apply List.map_congr_left
    intro c hc
    have hcont := h c hc
    by_cases h1 : c = '.'
    · subst h1
      exact absurd hcont (by decide)
    · by_cases h2 : c = ' '
      · subst h2
        exact absurd hcont (by decide)
      · simp [h1, h2]
  rw [heq, List.map_id]

end Icecast

namespace Icecast

/-- C5: `makeLegacyLabel` equals the reference definition modelled from
the spec — substitute `_` for every `.` and space, then concatenate, in
order and with no separator, all maximal substrings matching
`[a-zA-Z_:][a-zA-Z0-9_:]*` (realized by the one-pass scanner
`legacyLabelSpecCore`); `"Radio One.mp3"` yields `"Radio_One_mp3"`, and
an input containing no such substring yields the empty string. -/
theorem C5_legacy_label_reference :
    (∀ l : List Char, makeLegacyLabelCore l = legacyLabelSpecCore l) ∧
    makeLegacyLabel "Radio One.mp3" = "Radio_One_mp3" ∧
    makeLegacyLabel "1/2#3" = "" := by
  have hcore : ∀ l : List Char, makeLegacyLabelCore l = legacyLabelSpecCore l := by
    intro l
    rw [makeLegacyLabelCore_eq_scan]
    rfl
  refine ⟨hcore, ?_, ?_⟩
  · show (⟨makeLegacyLabelCore "Radio One.mp3".data⟩ : String) = "Radio_One_mp3"
    rw [hcore]
    decide
  · show (⟨makeLegacyLabelCore "1/2#3".data⟩ : String) = ""
    rw [hcore]
    decide

/-- C10: the legacy label transform is idempotent — applying
`makeLegacyLabel` to its own output returns it unchanged — because its
output consists only of identifier-safe characters and, when non-empty,
starts with a character from {letters, `_`, `:`}. -/
theorem C10_legacy_label_idempotent (s : String) :
    makeLegacyLabel (makeLegacyLabel s) = makeLegacyLabel s ∧
    (makeLegacyLabel s).data.all isIdentCont = true ∧
    isIdentStart ((makeLegacyLabel s).data.headD '_') = true := by
  have hdata : (makeLegacyLabel s).data
      = scanMatches false (s.data.map (fun c => if c = '.' ∨ c = ' ' then '_' else c)) :=
    makeLegacyLabelCore_eq_scan s.data
  have hcont : ∀ c ∈ (makeLegacyLabel s).data, isIdentCont c = true := by
    rw [hdata]
    intro c hc
    exact scanMatches_mem_cont _ false c hc
  refine ⟨?_, ?_, ?_⟩
  · show (⟨makeLegacyLabelCore (makeLegacyLabel s).data⟩ : String) = makeLegacyLabel s
    have hfix : makeLegacyLabelCore (makeLegacyLabel s).data = (makeLegacyLabel s).data := by
      rw [makeLegacyLabelCore_eq_scan, map_subst_id_of_cont _ hcont]
      apply scanMatches_false_fixpoint _ hcont
      intro c rest hEq
      exact scanMatches_false_head_start _ c rest (hdata ▸ hEq)
    exact congrArg String.mk hfix
  · rw [List.all_eq_true]
    intro c hc
    exact hcont c hc
  · cases hd : (makeLegacyLabel s).data with
    | nil => decide
    | cons c rest =>
      have hc : isIdentStart c = true :=
        scanMatches_false_head_start _ c rest (by rw [← hdata, hd])
      simpa using hc

end Icecast

namespace Icecast

/-- Witness for C8: a snapshot whose two records both normalize to the
key ("a","u") — the listen URLs "u" and "p/u" share the final segment —
and the registry ends at the last record's count. -/
theorem C8_last_write_wins_witness :
    2 ≤ ((((snapshotOf (Json.obj [("icestats", Json.obj [("source",
        Json.arr [Json.obj [("listeners", Json.num 1), ("server_name", Json.str "a"),
            ("listenurl", Json.str "u")],
          Json.obj [("listeners", Json.num 7), ("server_name", Json.str "a"),
            ("listenurl", Json.str "p/u")]])])])).filter
        (passesFilter "")).filter
        (fun s => decide (normalizeKey false s = ("a", "u")))).length) ∧
    ∃ slast : Stream,
      ((((snapshotOf (Json.obj [("icestats", Json.obj [("source",
          Json.arr [Json.obj [("listeners", Json.num 1), ("server_name", Json.str "a"),
              ("listenurl", Json.str "u")],
            Json.obj [("listeners", Json.num 7), ("server_name", Json.str "a"),
              ("listenurl", Json.str "p/u")]])])])).filter
          (passesFilter "")).filter
          (fun s => decide (normalizeKey false s = ("a", "u")))).getLast? = some slast) ∧
      (runCycle "" "" false (fun _ => none)
        (FetchResult.response 200 (Json.obj [("icestats", Json.obj [("source",
          Json.arr [Json.obj [("listeners", Json.num 1), ("server_name", Json.str "a"),
              ("listenurl", Json.str "u")],
            Json.obj [("listeners", Json.num 7), ("server_name", Json.str "a"),
              ("listenurl", Json.str "p/u")]])])]))).registry ("a", "u")
        = some slast.listeners :=
  ⟨by decide,
    C8_last_write_wins "" "" false (fun _ => none) 200
      (Json.obj [("icestats", Json.obj [("source",
        Json.arr [Json.obj [("listeners", Json.num 1), ("server_name", Json.str "a"),
            ("listenurl", Json.str "u")],
          Json.obj [("listeners", Json.num 7), ("server_name", Json.str "a"),
            ("listenurl", Json.str "p/u")]])])]) ("a", "u") (by decide)⟩

end Icecast
